import Mathlib

/-!
Verification of `pydisco/disco/task.py` (the Disco worker-side task engine).

The Python source is shallowly embedded below: pure fragments become Lean
functions on `String` / `List Char` / `Int`, fatal failures (`raise
DiscoError`, the `TaskFailed` event, which the spec documents as aborting the
task) become `Except`, and the file-system effects of `Task.put` and the
external-sort spill are made explicit as returned data.  External
collaborators that the code shells out to (the GNU `sort` utility, the
`func.re_reader` regex reader) are modelled from their documented behaviour
on the streams this code produces.
-/

namespace Disco

/-! ## Python-level string primitives

Python 2 `str` values are byte strings; we model them as `List Char` (all the
data handled here is ASCII) and compare them byte-wise, which is what Python 2
`cmp` does on `str`. -/

/-- Byte-wise (code-point) comparison of two strings, as Python 2 `cmp` on
`str` and C-locale `memcmp` both perform. -/
def charsCmp : List Char → List Char → Ordering
  | [], [] => .eq
  | [], _ :: _ => .lt
  | _ :: _, [] => .gt
  | a :: as, b :: bs =>
    match compare a.toNat b.toNat with
    | .eq => charsCmp as bs
    | o => o

/-- Characters Python's `int(str)` strips from both ends before parsing. -/
def isPySpace (c : Char) : Bool :=
  c = ' ' || c = '\t' || c = '\n' || c = '\x0b' || c = '\x0c' || c = '\r'

/-- ASCII decimal digit test (code points 48–57). -/
def isDigitCh (c : Char) : Bool :=
  48 ≤ c.toNat && c.toNat ≤ 57

/-- Value of a list of ASCII digits read in base 10. -/
def digitsToNat : List Char → Nat
  | [] => 0
  | c :: ds => (c.toNat - 48) * 10 ^ ds.length + digitsToNat ds

/-- Python 2 `int(s)` on a `str`: optional surrounding whitespace, optional
sign, then one or more decimal digits; `none` models `ValueError`. -/
def pyParseInt (s : List Char) : Option Int :=
  let t := ((s.dropWhile isPySpace).reverse.dropWhile isPySpace).reverse
  if t.head? = some '-' then
    if t.tail ≠ [] ∧ t.tail.all isDigitCh then some (-(digitsToNat t.tail : Int)) else none
  else if t.head? = some '+' then
    if t.tail ≠ [] ∧ t.tail.all isDigitCh then some (digitsToNat t.tail : Int) else none
  else if t ≠ [] ∧ t.all isDigitCh then some (digitsToNat t : Int) else none

/-! ## `Task.__getattr__`: job-configuration lookup

```python
def __getattr__(self, key):
    if key in self.jobdict:
        return self.jobdict[key]
    task_key = '%s_%s' % (self.__class__.__name__.lower(), key)
    if task_key in self.jobdict:
        return self.jobdict[task_key]
    raise AttributeError(...)
```

The job configuration (`JobDict`, an external mapping collaborator) is
modelled as a partial map `String → Option V`; `none` as the overall result
models the `AttributeError`. -/

def task_getattr {V : Type} (jobdict : String → Option V) (clsname key : String) :
    Option V :=
  match jobdict key with
  | some v => some v
  | none => jobdict (clsname ++ "_" ++ key)

/-! ## `Task.num_partitions`

```python
@property
def num_partitions(self):
    return max(1, self.jobdict['nr_reduces'])
``` -/

def num_partitions (nr_reduces : Int) : Int :=
  max 1 nr_reduces

/-! ## `Task.put`: out-of-band results

```python
oob_chars = re.compile(r'[^a-zA-Z_\-:0-9]')
...
def put(self, key, value):
    if oob_chars.match(key):
        raise DiscoError("OOB key contains invalid characters (%s)" % key)
    if value is not None:
        file(self.oob_file(key), 'w').write(value)
    OOBData(key, self)
```

`re.match` anchors at the start of the string only, so `oob_chars.match(key)`
is truthy exactly when the key is nonempty and its *first* character is
outside `[a-zA-Z_\-:0-9]`.  No length check appears anywhere in the code,
although the docstring promises one. -/

/-- Membership in the allowed OOB-key character class `[a-zA-Z_\-:0-9]`. -/
def oobAllowed (c : Char) : Bool :=
  ('a' ≤ c && c ≤ 'z') || ('A' ≤ c && c ≤ 'Z') || ('0' ≤ c && c ≤ '9') ||
    c = '_' || c = '-' || c = ':'

/-- `oob_chars.match(key)` is truthy: the anchored regex `[^a-zA-Z_\-:0-9]`
matches at position 0, i.e. the first character (if any) is disallowed. -/
def oob_chars_match (key : List Char) : Bool :=
  match key with
  | [] => false
  | c :: _ => !oobAllowed c

/-- The effect of one `Task.put(key, value)` call: `write` is the file write
it performs at the OOB path (none when `value is None`), `notified` the key of
the `OOBData` result-available notification it emits.  Nothing else of the
task's state is touched by `put`. -/
structure PutEffect where
  write : Option (String × String)
  notified : String
  deriving DecidableEq, Repr

/-- `Task.put`, with the `raise DiscoError` branch as `Except.error`. -/
def Task.put (key : String) (value : Option String) : Except String PutEffect :=
  if oob_chars_match key.data then
    .error ("OOB key contains invalid characters (" ++ key ++ ")")
  else
    .ok { write := value.map (fun v => ("oob/" ++ key, v)), notified := key }

/-! ## `Task.track_status`

```python
def track_status(self, iterator, message_template):
    status_interval = self.status_interval
    n = 0
    for n, item in enumerate(iterator):
        if status_interval and n % status_interval == 0:
            Message(message_template % n)
        yield item
    Message("Done: %s" % (message_template % (n + 1)))
```

We record the generator's observable behaviour as the trace of its progress
messages, yields and final completion message, in order. -/

inductive TSEvent (α : Type) where
  | progress : Nat → TSEvent α
  | yieldItem : α → TSEvent α
  | done : Nat → TSEvent α
  deriving DecidableEq, Repr

/-- One loop step of `track_status`: `pyN` is the current value of the Python
variable `n` (0 before the loop ever binds it), `i` the index `enumerate` will
assign to the next element. -/
def trackStatusGo {α : Type} (interval : Nat) : Nat → Nat → List α → List (TSEvent α)
  | pyN, _, [] => [.done (pyN + 1)]
  | _, i, x :: xs =>
    (if interval ≠ 0 ∧ i % interval = 0 then [TSEvent.progress i] else []) ++
      TSEvent.yieldItem x :: trackStatusGo interval i (i + 1) xs

/-- The full event trace of `track_status` over a finite input sequence. -/
def track_status {α : Type} (interval : Nat) (l : List α) : List (TSEvent α) :=
  trackStatusGo interval 0 0 l

/-- The elements yielded in a trace, in order. -/
def tsYields {α : Type} : List (TSEvent α) → List α
  | [] => []
  | .yieldItem a :: es => a :: tsYields es
  | _ :: es => tsYields es

/-- The number of completion (`done`) events in a trace. -/
def tsDoneCount {α : Type} : List (TSEvent α) → Nat
  | [] => 0
  | .done _ :: es => tsDoneCount es + 1
  | _ :: es => tsDoneCount es

/-- The number of progress events in a trace. -/
def tsProgressCount {α : Type} : List (TSEvent α) → Nat
  | [] => 0
  | .progress _ :: es => tsProgressCount es + 1
  | _ :: es => tsProgressCount es

/-- Truncate a trace just after its `k`-th yield (1-based: keep events up to
and including the `k`-th `yieldItem`). -/
def tsTakeYields {α : Type} : Nat → List (TSEvent α) → List (TSEvent α)
  | _, [] => []
  | 0, _ => []
  | k + 1, .yieldItem a :: es =>
    .yieldItem a :: (if k = 0 then [] else tsTakeYields k es)
  | k + 1, e :: es => e :: tsTakeYields (k + 1) es

/-! ## `num_cmp`: the in-memory sort comparator

```python
def num_cmp(x, y):
    try:
        x = (int(x[0]), x[1])
        y = (int(y[0]), y[1])
    except ValueError:
        pass
    return cmp(x, y)
```

The two conversions run in order, so three states reach the final `cmp`:
both keys parse (numeric compare, then value compare); `int(x[0])` parses but
`int(y[0])` raises, leaving `x` already rebound to `(int, str)` while `y` is
still `(str, str)` — Python 2 orders a number before any string, so the
result is `-1`; `int(x[0])` raises, leaving both pairs untouched (plain
string-pair compare).  We render Python's `cmp` result as an `Ordering`
(negative ↦ `.lt`, zero ↦ `.eq`, positive ↦ `.gt`). -/

/-- Python 2 `cmp` on two `(str, str)` pairs: key first, then value. -/
def pyPairCmp (x y : String × String) : Ordering :=
  (charsCmp x.1.data y.1.data).then (charsCmp x.2.data y.2.data)

def num_cmp (x y : String × String) : Ordering :=
  match pyParseInt x.1.data with
  | none => pyPairCmp x y
  | some nx =>
    match pyParseInt y.1.data with
    | none => .lt
    | some ny => (compare nx ny).then (charsCmp x.2.data y.2.data)

/-! ## `Task.url` and path derivation

```python
@property
def hex_key(self):
    return hashlib.md5(self.jobname).hexdigest()[:2]

@property
def home(self):
    return os.path.join(self.host, self.hex_key, self.jobname)

def url(self, name, *args, **kwargs):
    path = self.default_paths[name] % args
    scheme = kwargs.get('scheme', 'disco')
    return '%s://%s/disco/%s/%s' % (scheme, self.host, self.home, path)
```

`hashlib.md5` is an external library; the task model carries the two-char
`hexKey` it yields as data.  `default_paths[name] % args` is computed before
splicing, so `url` is modelled over the already-templated path string. -/

/-- `os.path.join` for two components (POSIX): an absolute second component
replaces the first, otherwise a single `/` separates them. -/
def pathJoin (a b : String) : String :=
  if b.data.head? = some '/' then b
  else if a = "" then b
  else if a.data.getLast? = some '/' then a ++ b
  else a ++ "/" ++ b

/-- The identity data `Task.url` depends on: the node host from the netloc,
the first two hex chars of `md5(jobname)` (computed by the external
`hashlib` collaborator), and the job name. -/
structure TaskId where
  host : String
  hexKey : String
  jobname : String
  deriving DecidableEq, Repr

def Task.home (t : TaskId) : String :=
  pathJoin (pathJoin t.host t.hexKey) t.jobname

def Task.url (t : TaskId) (path : String) (scheme : String := "disco") : String :=
  scheme ++ "://" ++ t.host ++ "/disco/" ++ Task.home t ++ "/" ++ path

/-- The URL shape asserted by the spec, written from the spec's words for
comparison with `Task.url`:
`<scheme>://<host>/disco/<hash(jobname)[:2]>/<jobname>/<templated-path>`,
nothing between the `/disco/` segment and the hash segment. -/
def specUrl (t : TaskId) (path scheme : String) : String :=
  scheme ++ "://" ++ t.host ++ "/disco/" ++ t.hexKey ++ "/" ++ t.jobname ++ "/" ++ path

/-! ## `Map._run`: single-input gate

```python
def _run(self):
    if len(self.inputs) != 1:
        TaskFailed("Map can only handle one input. Got: %s" % ...)
    ...
    fd, sze, url = self.connect_input(self.inputs[0])
    ...
```

Modelled from the spec: `TaskFailed` lives in `disco.events`, outside the
given sources; the spec lists "more than one input on a map task" as fatal
("task aborts, reported to scheduler"), so raising it is modelled as an
`Except.error` that stops the run before any input is read.  The rest of the
run (reading records, mapping, partitioning, writing outputs) is abstracted
as `process`, invoked only on the single input. -/

def Map.run {I O : Type} (inputs : List I) (process : I → O) : Except String O :=
  match inputs with
  | [input] => .ok (process input)
  | _ => .error "Map can only handle one input."

/-! ## `ReduceReader.download_and_sort`: the external-sort path

```python
out_fd = AtomicFile(dlname, 'w')
for url in self.inputs:
    fd, sze, url = self.task.connect_input(url)
    for k, v in self.task.reader(fd, sze, url):
        if ' ' in k:
            TaskFailed("Spaces are not allowed in keys with external sort.")
        if '\0' in v:
            TaskFailed("Zero bytes are not allowed in values ...")
        out_fd.write('%s %s\0' % (k, v))
out_fd.close()
...
cmd = ['sort', '-n', '-k', '1,1', '-z', '-t', ' ', '-o', sortname, dlname]
...
def reader(fd, sze, url):
    return func.re_reader('(?s)(.*?) (.*?)\000', fd, sze, url)
return self.multi_file_iterator(reader, inputs=[sortname])
```

The concatenated record stream from all (already shuffled) input URLs is the
model's input list.  `TaskFailed` is again modelled from the spec as a fatal
abort: `Except.ok` is reached only when every record passed both checks, and
only then does `out_fd.close()` run — `AtomicFile` gives
atomic-replace-on-completion, so an error leaves the spill file unfinalized. -/

/-- One spilled record, `'%s %s\0' % (k, v)`. -/
def spillRecord (k v : String) : List Char :=
  k.data ++ ' ' :: v.data ++ ['\x00']

/-- The spill loop: validate and serialize every record; the value of the
finalized spill file when no record was rejected. -/
def spillStream : List (String × String) → Except String (List Char)
  | [] => .ok []
  | (k, v) :: recs =>
    if ' ' ∈ k.data then
      .error "Spaces are not allowed in keys with external sort."
    else if '\x00' ∈ v.data then
      .error "Zero bytes are not allowed in values with external sort."
    else
      (spillStream recs).map (fun rest => spillRecord k v ++ rest)


/-! ## Models of the external collaborators of `download_and_sort`

`sort -n -k 1,1 -z -t ' '` (GNU coreutils) and the regex reader
`func.re_reader('(?s)(.*?) (.*?)\000', ...)` are not part of the given
sources.  They are modelled from their documented behaviour:

* `-z` makes records NUL-terminated lines; `-t ' '` makes fields
  space-separated; `-k 1,1 -n` sorts by the string numerical value of the
  first field (optional blanks, optional `-`, digits, optional `.digits`;
  a field with no numeric prefix counts as 0); records whose keys compare
  equal fall back to the whole-record byte comparison (last-resort compare,
  C locale).  Records comparing equal under that combination are
  byte-identical, so representing the sort by a stable sorting function is
  faithful regardless of GNU sort's internal algorithm.
* the regex reader repeatedly matches `(?s)(.*?) (.*?)\000`: lazily, the
  shortest prefix up to a space for the key, then the shortest continuation
  up to a NUL for the value, then continues after the match.  (On a stream
  where some space is followed by some NUL this is exactly
  first-space/first-NUL splitting.)

Python's `sorted` (used by `memory_sort`) is a stable sort as well, so one
stable insertion sort `sortByCmp` represents both sorting steps. -/

/-- Split a NUL-terminated stream into its records (`sort -z` line model):
`acc` holds the reversed chars of the record being read; a trailing chunk
without terminator still forms a record. -/
def splitNulGo (acc : List Char) : List Char → List (List Char)
  | [] => if acc = [] then [] else [acc.reverse]
  | c :: cs =>
    if c = '\x00' then acc.reverse :: splitNulGo [] cs
    else splitNulGo (c :: acc) cs

def splitNul (s : List Char) : List (List Char) :=
  splitNulGo [] s

/-- The regex reader of the sorted file, as a two-phase scanner: while the
first component is `none` we are inside the lazy key group `(?s)(.*?)`, which
closes at the first space; afterwards we are inside the lazy value group,
which closes at the first NUL, emitting the record; input exhausted mid-match
yields nothing further. -/
def parseSpillGo : Option (List Char) → List Char → List Char → List (String × String)
  | _, _, [] => []
  | none, kacc, c :: cs =>
    if c = ' ' then parseSpillGo (some kacc.reverse) [] cs
    else parseSpillGo none (c :: kacc) cs
  | some key, vacc, c :: cs =>
    if c = '\x00' then
      (String.mk key, String.mk vacc.reverse) :: parseSpillGo none [] cs
    else parseSpillGo (some key) (c :: vacc) cs

def parseSpill (s : List Char) : List (String × String) :=
  parseSpillGo none [] s

/-- First field of a record under `-t ' '`: the chars before the first space
(the whole record when it has no space). -/
def field1 (r : List Char) : List Char :=
  r.takeWhile (fun c => c ≠ ' ')

/-- Blanks skipped by GNU numeric parsing. -/
def isBlankCh (c : Char) : Bool :=
  c = ' ' || c = '\t'

/-- The "string numerical value" GNU `sort -n` reads from a key: optional
blanks, optional minus sign, integer digits, optional fraction digits. -/
structure GnuNum where
  neg : Bool
  intDigits : List Char
  fracDigits : List Char
  deriving DecidableEq, Repr

/-- Main part of `gnuNumParse`, after sign detection: integer digits, then
an optional fraction introduced by a decimal point. -/
def gnuNumParseMag (s2 : List Char) (neg : Bool) : GnuNum :=
  if (s2.dropWhile isDigitCh).head? = some '.' then
    ⟨neg, s2.takeWhile isDigitCh, (s2.dropWhile isDigitCh).tail.takeWhile isDigitCh⟩
  else ⟨neg, s2.takeWhile isDigitCh, []⟩

def gnuNumParse (s : List Char) : GnuNum :=
  if (s.dropWhile isBlankCh).head? = some '-' then
    gnuNumParseMag (s.dropWhile isBlankCh).tail true
  else gnuNumParseMag (s.dropWhile isBlankCh) false

/-- Compare two fraction-digit sequences, right-padding the shorter with
zeros. -/
def fracCmp : List Char → List Char → Ordering
  | [], [] => .eq
  | [], bs => if bs.all (· = '0') then .eq else .lt
  | as, [] => if as.all (· = '0') then .eq else .gt
  | a :: as, b :: bs =>
    match compare a.toNat b.toNat with
    | .eq => fracCmp as bs
    | o => o

def stripZeros (ds : List Char) : List Char :=
  ds.dropWhile (· = '0')

/-- Compare two parsed magnitudes: more significant integer digits win, then
digit-wise, then the fractions. -/
def magCmp (a b : GnuNum) : Ordering :=
  (compare (stripZeros a.intDigits).length (stripZeros b.intDigits).length).then
    ((charsCmp (stripZeros a.intDigits) (stripZeros b.intDigits)).then
      (fracCmp a.fracDigits b.fracDigits))

def GnuNum.isZero (a : GnuNum) : Bool :=
  stripZeros a.intDigits = [] && a.fracDigits.all (· = '0')

/-- Numeric comparison of two key fields per `sort -n`. -/
def gnuNumCmp (x y : List Char) : Ordering :=
  if (gnuNumParse x).neg then
    if (gnuNumParse y).neg then (magCmp (gnuNumParse x) (gnuNumParse y)).swap
    else if (gnuNumParse x).isZero && (gnuNumParse y).isZero then .eq else .lt
  else
    if (gnuNumParse y).neg then
      if (gnuNumParse x).isZero && (gnuNumParse y).isZero then .eq else .gt
    else magCmp (gnuNumParse x) (gnuNumParse y)

/-- Full record comparison of `sort -n -k 1,1 -z -t ' '`: numeric on the
first field, then the last-resort whole-record byte comparison. -/
def extRecCmp (r1 r2 : List Char) : Ordering :=
  (gnuNumCmp (field1 r1) (field1 r2)).then (charsCmp r1 r2)

/-- Stable insertion into a sorted list: `a` goes before the first element it
does not compare greater than, so elements inserted earlier from later list
positions stay behind equal elements. -/
def insertByCmp {α : Type} (cmp : α → α → Ordering) (a : α) : List α → List α
  | [] => [a]
  | b :: bs => if cmp a b = .gt then b :: insertByCmp cmp a bs else a :: b :: bs

/-- Stable insertion sort by an `Ordering`-valued comparator. -/
def sortByCmp {α : Type} (cmp : α → α → Ordering) : List α → List α
  | [] => []
  | a :: as => insertByCmp cmp a (sortByCmp cmp as)

/-- Rebuild a NUL-terminated stream from records. -/
def joinNul : List (List Char) → List Char
  | [] => []
  | r :: rs => r ++ '\x00' :: joinNul rs

/-- The byte content the spill loop writes for a record list. -/
def serializeSpill : List (String × String) → List Char
  | [] => []
  | r :: rs => spillRecord r.1 r.2 ++ serializeSpill rs

/-- The external `sort` invocation on the finalized spill file. -/
def gnuSortZ (file : List Char) : List Char :=
  joinNul (sortByCmp extRecCmp (splitNul file))

/-- The record order delivered by the external-sort path: spill (validating),
externally sort, re-parse. -/
def download_and_sort (recs : List (String × String)) :
    Except String (List (String × String)) :=
  (spillStream recs).map (fun file => parseSpill (gnuSortZ file))

/-- The record order delivered by the in-memory path,
`sorted(m, cmp=num_cmp)` over the materialized stream. -/
def memory_sort (recs : List (String × String)) : List (String × String) :=
  sortByCmp num_cmp recs

/-- The payloads of the progress events of a trace, in order. -/
def tsProgressIdxs {α : Type} : List (TSEvent α) → List Nat
  | [] => []
  | .progress n :: es => n :: tsProgressIdxs es
  | _ :: es => tsProgressIdxs es

/-- The chars of one record as GNU `sort -z` sees it: key, one space, value
(the NUL is the record terminator, not part of the record). -/
def chunkRec (r : String × String) : List Char :=
  r.1.data ++ ' ' :: r.2.data

/-- A key that is the canonical decimal representation of a natural number:
nonempty, digits only, and no leading zero (except the single digit `0`). -/
def isCanonNat (ds : List Char) : Bool :=
  !ds.isEmpty && ds.all isDigitCh && (ds.head? != some '0' || ds == ['0'])

/-! # Claims -/

/-! ## C9: `num_partitions` -/

/-- C9: the number of partitions equals `max(1, nr_reduces)`: it is 1 when the
declared reduce count is 0, equals the count when it is positive, and is
always at least 1. -/
theorem num_partitions_spec (N : Int) :
    num_partitions N = max 1 N ∧ (N = 0 → num_partitions N = 1) ∧
      (0 < N → num_partitions N = N) ∧ 1 ≤ num_partitions N := by
  refine ⟨rfl, fun h => by simp [num_partitions, h], fun h => ?_, le_max_left 1 N⟩
  exact max_eq_right h

theorem num_partitions_spec_witness :
    num_partitions 0 = 1 ∧ num_partitions 5 = 5 :=
  ⟨(num_partitions_spec 0).2.1 rfl, (num_partitions_spec 5).2.2.1 (by decide)⟩

/-! ## C1: task-type-prefixed configuration lookup -/

/-- C1 counterexample: when the job configuration holds both a plain entry
(`reader ↦ 1`) and a task-type-prefixed entry (`reduce_reader ↦ 2`),
attribute lookup on a Reduce task returns the plain value, not the
task-specific one. -/
theorem task_getattr_counterexample :
    task_getattr
        (fun s => if s = "reader" then some 1 else if s = "reduce_reader" then some 2 else none)
        "reduce" "reader" = some 1 ∧
      (some 1 : Option Nat) ≠ some 2 := by
  exact ⟨rfl, by decide⟩

/-- C1 (amended): the plain job-configuration entry shadows the
task-type-prefixed one: lookup returns the plain value whenever it exists,
falls back to the `<tasktype>_<key>` entry only when the plain one is absent,
and fails with `AttributeError` (here `none`) when neither exists. -/
theorem task_getattr_spec {V : Type} (jd : String → Option V) (cls key : String) :
    (∀ v, jd key = some v → task_getattr jd cls key = some v) ∧
      (jd key = none → task_getattr jd cls key = jd (cls ++ "_" ++ key)) ∧
      (jd key = none → jd (cls ++ "_" ++ key) = none → task_getattr jd cls key = none) := by
  refine ⟨fun v h => ?_, fun h => ?_, fun h h2 => ?_⟩ <;> simp [task_getattr, h, *]

theorem task_getattr_spec_witness :
    ((fun s => if s = "reduce_reader" then some 2 else none) "reader" = (none : Option Nat)) ∧
      task_getattr (fun s => if s = "reduce_reader" then some 2 else none) "reduce" "reader" =
        some 2 := by
  refine ⟨by decide, ?_⟩
  rw [(task_getattr_spec (fun s => if s = "reduce_reader" then some 2 else none)
    "reduce" "reader").2.1 (by decide)]
  decide

/-! ## C2: OOB key validation in `Task.put` -/

/-- C2: the code contradicts its own docstring ("Maximum key length is 256
characters. Only characters in the set `[a-zA-Z_\-:0-9]` are allowed in the
key").  `oob_chars.match` anchors at the start of the key, so only the first
character is ever inspected, and no length check exists at all: `put`
accepts the key `"a b"` (space inside) and performs the write, and accepts a
257-character key. -/
theorem put_missing_validation :
    Task.put "a b" (some "x") = .ok { write := some ("oob/a b", "x"), notified := "a b" } ∧
      (Task.put (String.mk (List.replicate 257 'a')) (some "x")).isOk = true := by
  exact ⟨rfl, by decide⟩

/-! ## C10: `Task.put(key, None)` -/

/-- C10: for any key that passes the (first-character) grammar check,
`put(key, None)` performs no file write yet still emits the `OOBData`
result-available notification for that key; the returned effect record is
the complete effect of the call. -/
theorem put_none_no_write (key : String) (h : oob_chars_match key.data = false) :
    Task.put key none = .ok { write := none, notified := key } := by
  simp [Task.put, h, Option.map_none]

theorem put_none_no_write_witness :
    oob_chars_match "stats".data = false ∧
      Task.put "stats" none = .ok { write := none, notified := "stats" } :=
  ⟨by decide, put_none_no_write "stats" (by decide)⟩

/-! ## C7: map single-input gate -/

/-- C7: a map task whose input list has length other than exactly one fails
fatally before any record is processed or any output written (the abstracted
body `process` is never invoked). -/
theorem map_run_single_input {I O : Type} (inputs : List I) (process : I → O)
    (h : inputs.length ≠ 1) :
    Map.run inputs process = .error "Map can only handle one input." := by
  cases inputs with
  | nil => rfl
  | cons a tl =>
    cases tl with
    | nil => simp at h
    | cons b tl2 => rfl

theorem map_run_single_input_witness :
    (["url1", "url2"] : List String).length ≠ 1 ∧
      Map.run ["url1", "url2"] (fun s => s) = .error "Map can only handle one input." :=
  ⟨by decide, map_run_single_input ["url1", "url2"] (fun s => s) (by decide)⟩

/-! ## C5: URL shape -/

/-- C5 counterexample: with host `node1`, hash prefix `ab` and jobname `Job`,
`Task.url` places the host again between the `/disco/` segment and the hash
segment, so the produced URL differs from the spec's claimed shape
`<scheme>://<host>/disco/<hash>/<jobname>/<path>`. -/
theorem url_shape_counterexample :
    Task.url ⟨"node1", "ab", "Job"⟩ "map-index.txt" =
        "disco://node1/disco/node1/ab/Job/map-index.txt" ∧
      Task.url ⟨"node1", "ab", "Job"⟩ "map-index.txt" ≠
        specUrl ⟨"node1", "ab", "Job"⟩ "map-index.txt" "disco" := by
  exact ⟨by decide, by decide⟩

/-- C5 (amended): for components free of the `os.path.join` edge cases
(no absolute component, no trailing slash, nonempty host and hash), the URL
has exactly the shape
`<scheme>://<host>/disco/<host>/<hash(jobname)[:2]>/<jobname>/<templated-path>`:
the host appears a second time between `/disco/` and the hash segment. -/
theorem url_shape (t : TaskId) (path scheme : String)
    (hk : t.hexKey.data.head? ≠ some '/')
    (hj : t.jobname.data.head? ≠ some '/')
    (hhe : t.host.data.getLast? ≠ some '/')
    (hke : t.hexKey.data.getLast? ≠ some '/')
    (hhn : t.host ≠ "")
    (hkn : t.hexKey ≠ "") :
    Task.url t path scheme =
      scheme ++ "://" ++ t.host ++ "/disco/" ++ t.host ++ "/" ++ t.hexKey ++ "/" ++
        t.jobname ++ "/" ++ path := by
  have hkd : t.hexKey.data ≠ [] := fun h => hkn (String.ext (by simpa using h))
  have hd1 : pathJoin t.host t.hexKey = t.host ++ "/" ++ t.hexKey := by
    simp [pathJoin, hk, hhn, hhe]
  have hne : t.host ++ "/" ++ t.hexKey ≠ "" := by
    intro h
    have := congrArg String.data h
    simp [String.data_append] at this
  have h4 : ('/' :: t.hexKey.data).getLast? ≠ some '/' := by
    have he : ('/' :: t.hexKey.data) = ['/'] ++ t.hexKey.data := rfl
    rw [he, List.getLast?_append]
    rcases hg : t.hexKey.data.getLast? with _ | c
    · exact absurd (List.getLast?_eq_none_iff.mp hg) hkd
    · simp only [Option.or_some]
      intro h
      exact hke (by rw [hg, h])
  have hd2 : pathJoin (t.host ++ "/" ++ t.hexKey) t.jobname =
      t.host ++ "/" ++ t.hexKey ++ "/" ++ t.jobname := by
    simp [pathJoin, hj, hne, h4]
  simp only [Task.url, Task.home, hd1, hd2]
  apply String.ext
  simp [String.data_append]

theorem url_shape_witness :
    ("ab" : String).data.head? ≠ some '/' ∧
      Task.url ⟨"node1", "ab", "Job"⟩ "oob/k" "dir" =
        "dir://node1/disco/node1/ab/Job/oob/k" :=
  ⟨by decide,
    url_shape ⟨"node1", "ab", "Job"⟩ "oob/k" "dir" (by decide) (by decide) (by decide)
      (by decide) (by decide) (by decide)⟩

/-! ## C3: the `num_cmp` comparator -/

/-- C3 counterexample: for `("2","v")` against `("1x","w")` only the first
key parses as an integer; the code orders `("2","v")` first (the converted
integer key sorts before any string in Python 2), while the natural string
ordering of the original pairs puts `"1x"` before `"2"`. -/
theorem num_cmp_counterexample :
    num_cmp ("2", "v") ("1x", "w") = .lt ∧
      pyPairCmp ("2", "v") ("1x", "w") = .gt := by
  exact ⟨by decide, by decide⟩

/-- C3 (amended): `num_cmp` compares numerically (then by value) when both
keys parse as integers; when the first key parses and the second does not,
the first pair always orders strictly first (Python 2 places a number before
any string), NOT by string ordering of the keys; only when the first key
fails to parse is the natural (key, then value) string ordering of the
original pairs used. -/
theorem num_cmp_cases (x y : String × String) :
    (∀ nx ny, pyParseInt x.1.data = some nx → pyParseInt y.1.data = some ny →
        num_cmp x y = (compare nx ny).then (charsCmp x.2.data y.2.data)) ∧
      (∀ nx, pyParseInt x.1.data = some nx → pyParseInt y.1.data = none →
        num_cmp x y = .lt) ∧
      (pyParseInt x.1.data = none → num_cmp x y = pyPairCmp x y) := by
  refine ⟨fun nx ny h1 h2 => ?_, fun nx h1 h2 => ?_, fun h1 => ?_⟩ <;>
    simp [num_cmp, h1, *]

theorem num_cmp_cases_witness :
    pyParseInt "10".data = some 10 ∧ pyParseInt "9".data = some 9 ∧
      num_cmp ("10", "x") ("9", "y") = .gt := by
  refine ⟨by decide, by decide, ?_⟩
  rw [(num_cmp_cases ("10", "x") ("9", "y")).1 10 9 (by decide) (by decide)]
  decide

/-! ## C8: `track_status` -/

theorem tsYields_go {α : Type} (N : Nat) :
    ∀ (l : List α) (p i : Nat), tsYields (trackStatusGo N p i l) = l := by
  intro l
  induction l with
  | nil => intro p i; rfl
  | cons x xs ih =>
    intro p i
    by_cases h : N ≠ 0 ∧ i % N = 0 <;> simp [trackStatusGo, h, tsYields, ih]

theorem tsDoneCount_go {α : Type} (N : Nat) :
    ∀ (l : List α) (p i : Nat), tsDoneCount (trackStatusGo N p i l) = 1 := by
  intro l
  induction l with
  | nil => intro p i; rfl
  | cons x xs ih =>
    intro p i
    by_cases h : N ≠ 0 ∧ i % N = 0 <;> simp [trackStatusGo, h, tsDoneCount, ih]

theorem trackStatusGo_getLast {α : Type} (N : Nat) :
    ∀ (l : List α) (p i : Nat),
      (trackStatusGo N p i l).getLast? =
        some (.done (if l.length = 0 then p + 1 else i + l.length)) := by
  intro l
  induction l with
  | nil => intro p i; rfl
  | cons x xs ih =>
    intro p i
    have hsplit : trackStatusGo N p i (x :: xs) =
        ((if N ≠ 0 ∧ i % N = 0 then [TSEvent.progress i] else []) ++
          [TSEvent.yieldItem x]) ++ trackStatusGo N i (i + 1) xs := by
      simp [trackStatusGo]
    rw [hsplit, List.getLast?_append, ih]
    cases xs with
    | nil => simp [Option.or]
    | cons y ys => simp [Option.or]; omega

theorem tsProgressIdxs_go {α : Type} (N : Nat) :
    ∀ (l : List α) (p i : Nat),
      tsProgressIdxs (trackStatusGo N p i l) =
        if N = 0 then [] else (List.range' i l.length).filter (fun j => j % N == 0) := by
  intro l
  induction l with
  | nil =>
    intro p i
    by_cases hN : N = 0 <;> simp [trackStatusGo, tsProgressIdxs, hN]
  | cons x xs ih =>
    intro p i
    by_cases hN : N = 0
    · subst hN
      simp [trackStatusGo, tsProgressIdxs, ih]
    · by_cases hi : i % N = 0 <;>
        simp [trackStatusGo, hN, hi, tsProgressIdxs, ih, List.range'_succ, List.filter_cons]

theorem tsTakeYields_zero {α : Type} (es : List (TSEvent α)) : tsTakeYields 0 es = [] := by
  cases es <;> rfl

theorem tsTakeYields_go {α : Type} (N : Nat) :
    ∀ (l : List α) (k p i : Nat),
      tsTakeYields k (trackStatusGo N p i l) =
        tsTakeYields k (trackStatusGo N p i (l.take k)) := by
  intro l
  induction l with
  | nil => intro k p i; rw [List.take_nil]
  | cons x xs ih =>
    intro k p i
    cases k with
    | zero => rw [tsTakeYields_zero, tsTakeYields_zero]
    | succ k =>
      simp only [List.take_succ_cons]
      by_cases h : N ≠ 0 ∧ i % N = 0 <;>
        cases k with
        | zero => simp [trackStatusGo, h, tsTakeYields]
        | succ k' => simp [trackStatusGo, h, tsTakeYields, ih]

/-- C8: `track_status` yields exactly the input sequence, in order and count;
its trace ends with exactly one completion event; progress events carry
exactly the indices `0, N, 2N, …` below the input length (none when the
configured interval `N` is 0); and the trace up to the `k`-th yield is
already determined by the first `k` input elements, so the generator never
runs more than one element ahead of its consumer. -/
theorem track_status_spec {α : Type} (N : Nat) (l : List α) :
    tsYields (track_status N l) = l ∧
      tsDoneCount (track_status N l) = 1 ∧
      (track_status N l).getLast? = some (.done (max 1 l.length)) ∧
      tsProgressIdxs (track_status N l) =
        (if N = 0 then [] else (List.range l.length).filter (fun j => j % N == 0)) ∧
      (∀ k, tsTakeYields k (track_status N l) = tsTakeYields k (track_status N (l.take k))) := by
  refine ⟨tsYields_go N l 0 0, tsDoneCount_go N l 0 0, ?_, ?_, fun k => tsTakeYields_go N l k 0 0⟩
  · rw [track_status, trackStatusGo_getLast]
    cases l with
    | nil => rfl
    | cons x xs =>
      simp [Nat.max_eq_right (show 1 ≤ (x :: xs).length by simp)]
  · rw [track_status, tsProgressIdxs_go, List.range_eq_range']

/-! ## C6: external-sort spill validation and wire format -/

/-- C6: the spill over the streamed records finalizes (reaches `ok`, closing
the `AtomicFile`) exactly when no record has a space in its key or a NUL in
its value — any offending record aborts the task fatally with the file left
unfinalized — and the finalized file serializes each record as key, one
space, value, one NUL byte, in stream order. -/
theorem spillStream_spec (recs : List (String × String)) :
    (∀ file, spillStream recs = .ok file → file = serializeSpill recs) ∧
      ((spillStream recs).isOk = true ↔
        ∀ r ∈ recs, ' ' ∉ r.1.data ∧ '\x00' ∉ r.2.data) := by
  induction recs with
  | nil =>
    refine ⟨fun file h => ?_, by simp [spillStream, Except.isOk, Except.toBool]⟩
    injection h with h
    exact h.symm
  | cons r rs ih =>
    obtain ⟨k, v⟩ := r
    by_cases h1 : ' ' ∈ k.data
    · refine ⟨fun file h => ?_, ?_⟩
      · rw [spillStream, if_pos h1] at h
        cases h
      · rw [spillStream, if_pos h1]
        constructor
        · intro h
          exact Bool.noConfusion h
        · intro h
          exact absurd h1 (h (k, v) (List.mem_cons_self (k, v) rs)).1
    · by_cases h2 : '\x00' ∈ v.data
      · refine ⟨fun file h => ?_, ?_⟩
        · rw [spillStream, if_neg h1, if_pos h2] at h
          cases h
        · rw [spillStream, if_neg h1, if_pos h2]
          constructor
          · intro h
            exact Bool.noConfusion h
          · intro h
            exact absurd h2 (h (k, v) (List.mem_cons_self (k, v) rs)).2
      · have hstep : spillStream ((k, v) :: rs) =
            (spillStream rs).map (fun rest => spillRecord k v ++ rest) := by
          rw [spillStream, if_neg h1, if_neg h2]
        refine ⟨fun file h => ?_, ?_⟩
        · rw [hstep] at h
          cases hs : spillStream rs with
          | error e =>
            rw [hs] at h
            simp [Except.map] at h
          | ok file0 =>
            rw [hs] at h
            simp only [Except.map, Except.ok.injEq] at h
            rw [← h, ih.1 file0 hs]
            rfl
        · rw [hstep]
          cases hs : spillStream rs with
          | error e =>
            simp only [Except.map]
            constructor
            · intro h
              exact Bool.noConfusion h
            · intro h
              have hok : (spillStream rs).isOk = true :=
                ih.2.mpr (fun r hr => h r (List.mem_cons_of_mem _ hr))
              rw [hs] at hok
              exact Bool.noConfusion hok
          | ok file0 =>
            simp only [Except.map]
            constructor
            · intro _ r hr
              rcases List.mem_cons.mp hr with hr | hr
              · cases hr
                exact ⟨h1, h2⟩
              · exact ih.2.mp (by rw [hs]; rfl) r hr
            · intro _
              rfl

theorem spillStream_spec_witness :
    spillStream [("k", "v")] = .ok "k v\x00".data ∧
      "k v\x00".data = serializeSpill [("k", "v")] :=
  ⟨rfl, (spillStream_spec [("k", "v")]).1 "k v\x00".data rfl⟩

/-! ## C4: external sort vs. in-memory sort

Helper development: `Ordering` facts, digit-string arithmetic, the behaviour
of the spill/parse round trip, and exchange/congruence lemmas for the stable
sort. -/

theorem then_eq_right (o : Ordering) : o.then .eq = o := by
  cases o <;> rfl

theorem then_of_ne {o : Ordering} (h : o ≠ .eq) (p : Ordering) : o.then p = o := by
  cases o with
  | eq => exact absurd rfl h
  | lt => rfl
  | gt => rfl

theorem then_eq_iff {o p : Ordering} : o.then p = .eq ↔ o = .eq ∧ p = .eq := by
  cases o <;> simp [Ordering.then]

theorem char_toNat_inj {a b : Char} (h : a.toNat = b.toNat) : a = b :=
  Char.ext (UInt32.toNat.inj h)

/-- A digit character is distinct from any non-digit character. -/
theorem digit_ne_char {c : Char} (h : isDigitCh c = true) (d : Char)
    (hd : isDigitCh d = false) : c ≠ d := by
  intro he
  subst he
  rw [h] at hd
  cases hd

theorem digit_not_blank {c : Char} (h : isDigitCh c = true) : isBlankCh c = false := by
  rcases hb : isBlankCh c with _ | _
  · rfl
  · exfalso
    have hs : c = ' ' ∨ c = '\t' := by
      by_cases h1 : c = ' '
      · exact Or.inl h1
      · by_cases h2 : c = '\t'
        · exact Or.inr h2
        · rw [isBlankCh] at hb
          simp [h1, h2] at hb
    rcases hs with rfl | rfl <;> cases h

theorem digit_not_pyspace {c : Char} (h : isDigitCh c = true) : isPySpace c = false := by
  rcases hb : isPySpace c with _ | _
  · rfl
  · exfalso
    rw [isPySpace] at hb
    simp only [Bool.or_eq_true, decide_eq_true_eq] at hb
    rcases hb with ((((rfl | rfl) | rfl) | rfl) | rfl) | rfl <;> cases h

theorem digit_toNat_bounds {c : Char} (h : isDigitCh c = true) :
    48 ≤ c.toNat ∧ c.toNat ≤ 57 := by
  rw [isDigitCh] at h
  simpa using h

theorem dropWhile_eq_self_of_all {p : Char → Bool} {l : List Char}
    (h : ∀ c ∈ l, p c = false) : l.dropWhile p = l := by
  cases l with
  | nil => rfl
  | cons c cs => simp [List.dropWhile_cons, h c (List.mem_cons_self c cs)]

theorem takeWhile_eq_self_of_all {p : Char → Bool} {l : List Char}
    (h : ∀ c ∈ l, p c = true) : l.takeWhile p = l := by
  induction l with
  | nil => rfl
  | cons c cs ih =>
    simp [List.takeWhile_cons, h c (List.mem_cons_self c cs),
      ih (fun d hd => h d (List.mem_cons_of_mem c hd))]

theorem dropWhile_eq_nil_of_all {p : Char → Bool} {l : List Char}
    (h : ∀ c ∈ l, p c = true) : l.dropWhile p = [] := by
  induction l with
  | nil => rfl
  | cons c cs ih =>
    simp [List.dropWhile_cons, h c (List.mem_cons_self c cs),
      ih (fun d hd => h d (List.mem_cons_of_mem c hd))]

theorem takeWhile_middle {p : Char → Bool} {xs : List Char} {y : Char} (rest : List Char)
    (hxs : ∀ x ∈ xs, p x = true) (hy : p y = false) :
    (xs ++ y :: rest).takeWhile p = xs := by
  induction xs with
  | nil => simp [List.takeWhile_cons, hy]
  | cons x xt ih =>
    simp only [List.cons_append, List.takeWhile_cons,
      hxs x (List.mem_cons_self x xt), if_true]
    simp [ih (fun d hd => hxs d (List.mem_cons_of_mem x hd))]

theorem head?_dropWhile_not {p : Char → Bool} :
    ∀ {l : List Char} {c : Char}, (l.dropWhile p).head? = some c → p c = false := by
  intro l
  induction l with
  | nil => intro c h; cases h
  | cons x xs ih =>
    intro c h
    rw [List.dropWhile_cons] at h
    by_cases hx : p x = true
    · rw [if_pos hx] at h
      exact ih h
    · rw [if_neg hx] at h
      injection h with h
      subst h
      exact Bool.not_eq_true _ ▸ hx

theorem int_compare_def (a b : Int) :
    compare a b = if a < b then .lt else if a = b then .eq else .gt := rfl

theorem compare_natCast (m n : Nat) : compare (m : Int) (n : Int) = compare m n := by
  rw [int_compare_def, Nat.compare_def_lt]
  by_cases h : m < n
  · simp [h, Int.ofNat_lt.mpr h]
  · have h2 : ¬ ((m : Int) < n) := fun hc => h (Int.ofNat_lt.mp hc)
    by_cases he : m = n
    · simp [h, h2, he]
    · have he2 : (m : Int) ≠ n := fun hc => he (Int.ofNat_inj.mp hc)
      have h3 : n < m := by omega
      simp [h, h2, he, he2, h3]

theorem digitsToNat_lt (ds : List Char) (h : ∀ c ∈ ds, isDigitCh c = true) :
    digitsToNat ds < 10 ^ ds.length := by
  induction ds with
  | nil => simp [digitsToNat]
  | cons c ct ih =>
    have hc := digit_toNat_bounds (h c (List.mem_cons_self c ct))
    have hih := ih (fun d hd => h d (List.mem_cons_of_mem c hd))
    simp only [digitsToNat, List.length_cons]
    calc (c.toNat - 48) * 10 ^ ct.length + digitsToNat ct
        < (c.toNat - 48) * 10 ^ ct.length + 10 ^ ct.length := Nat.add_lt_add_left hih _
      _ = (c.toNat - 48 + 1) * 10 ^ ct.length := by ring
      _ ≤ 10 * 10 ^ ct.length := Nat.mul_le_mul_right _ (by omega)
      _ = 10 ^ (ct.length + 1) := by ring

theorem digitsToNat_head_ge {c : Char} (ct : List Char) (hc : isDigitCh c = true)
    (h0 : c ≠ '0') : 10 ^ ct.length ≤ digitsToNat (c :: ct) := by
  have hb := digit_toNat_bounds hc
  have h1 : c.toNat ≠ 48 := fun he => h0 (char_toNat_inj (by rw [he]; decide))
  calc 10 ^ ct.length = 1 * 10 ^ ct.length := by ring
    _ ≤ (c.toNat - 48) * 10 ^ ct.length := Nat.mul_le_mul_right _ (by omega)
    _ ≤ digitsToNat (c :: ct) := by rw [digitsToNat]; exact Nat.le_add_right _ _

theorem digitsToNat_stripZeros (ds : List Char) :
    digitsToNat (stripZeros ds) = digitsToNat ds := by
  induction ds with
  | nil => rfl
  | cons c ct ih =>
    by_cases h : c = '0'
    · subst h
      have hs : stripZeros ('0' :: ct) = stripZeros ct := by
        simp [stripZeros, List.dropWhile_cons]
      rw [hs, ih, digitsToNat]
      simp [show ('0'.toNat - 48) = 0 by decide]
    · simp [stripZeros, List.dropWhile_cons, h]

theorem mem_stripZeros {c : Char} {ds : List Char} (h : c ∈ stripZeros ds) : c ∈ ds := by
  induction ds with
  | nil => exact absurd h (List.not_mem_nil c)
  | cons d dt ih =>
    rw [stripZeros, List.dropWhile_cons] at h
    by_cases hd : d = '0'
    · rw [if_pos (by simp [hd])] at h
      exact List.mem_cons_of_mem d (ih h)
    · rw [if_neg (by simp [hd])] at h
      exact h

theorem stripZeros_head {ds : List Char} {c : Char}
    (h : (stripZeros ds).head? = some c) : c ≠ '0' := by
  have := head?_dropWhile_not (p := fun c => decide (c = '0')) h
  simpa using this

theorem nat_compare_add_left (x a b : Nat) : compare (x + a) (x + b) = compare a b := by
  rcases Nat.lt_trichotomy a b with h | h | h
  · rw [Nat.compare_eq_lt.mpr h, Nat.compare_eq_lt.mpr (by omega)]
  · subst h
    rw [Nat.compare_eq_eq.mpr rfl, Nat.compare_eq_eq.mpr rfl]
  · rw [Nat.compare_eq_gt.mpr h, Nat.compare_eq_gt.mpr (by omega)]

theorem charsCmp_digits_eq_len :
    ∀ (A B : List Char), A.length = B.length →
      (∀ c ∈ A, isDigitCh c = true) → (∀ c ∈ B, isDigitCh c = true) →
      charsCmp A B = compare (digitsToNat A) (digitsToNat B) := by
  intro A
  induction A with
  | nil =>
    intro B hlen _ _
    cases B with
    | nil => decide
    | cons b bt => simp at hlen
  | cons a at' ih =>
    intro B hlen hA hB
    cases B with
    | nil => simp at hlen
    | cons b bt =>
      have hlen' : at'.length = bt.length := by simpa using hlen
      have ha := hA a (List.mem_cons_self a at')
      have hb := hB b (List.mem_cons_self b bt)
      have hat : ∀ c ∈ at', isDigitCh c = true :=
        fun d hd => hA d (List.mem_cons_of_mem a hd)
      have hbt : ∀ c ∈ bt, isDigitCh c = true :=
        fun d hd => hB d (List.mem_cons_of_mem b hd)
      have hba := digit_toNat_bounds ha
      have hbb := digit_toNat_bounds hb
      rcases hcab : compare a.toNat b.toNat with _ | _ | _
      · have hlt : a.toNat < b.toNat := Nat.compare_eq_lt.mp hcab
        have hv : digitsToNat (a :: at') < digitsToNat (b :: bt) := by
          have hvA := digitsToNat_lt at' hat
          rw [digitsToNat, digitsToNat, hlen']
          calc (a.toNat - 48) * 10 ^ bt.length + digitsToNat at'
              < (a.toNat - 48) * 10 ^ bt.length + 10 ^ bt.length :=
                Nat.add_lt_add_left (hlen' ▸ hvA) _
            _ = (a.toNat - 48 + 1) * 10 ^ bt.length := by ring
            _ ≤ (b.toNat - 48) * 10 ^ bt.length := Nat.mul_le_mul_right _ (by omega)
            _ ≤ (b.toNat - 48) * 10 ^ bt.length + digitsToNat bt := Nat.le_add_right _ _
        rw [charsCmp, hcab, Nat.compare_eq_lt.mpr hv]
      · have hab : a = b := char_toNat_inj (Nat.compare_eq_eq.mp hcab)
        subst hab
        rw [charsCmp, hcab, digitsToNat, digitsToNat, hlen', nat_compare_add_left]
        exact ih bt hlen' hat hbt
      · have hgt : b.toNat < a.toNat := Nat.compare_eq_gt.mp hcab
        have hv : digitsToNat (b :: bt) < digitsToNat (a :: at') := by
          have hvB := digitsToNat_lt bt hbt
          rw [digitsToNat, digitsToNat, hlen']
          calc (b.toNat - 48) * 10 ^ bt.length + digitsToNat bt
              < (b.toNat - 48) * 10 ^ bt.length + 10 ^ bt.length :=
                Nat.add_lt_add_left hvB _
            _ = (b.toNat - 48 + 1) * 10 ^ bt.length := by ring
            _ ≤ (a.toNat - 48) * 10 ^ bt.length := Nat.mul_le_mul_right _ (by omega)
            _ ≤ (a.toNat - 48) * 10 ^ bt.length + digitsToNat at' := Nat.le_add_right _ _
        rw [charsCmp, hcab, Nat.compare_eq_gt.mpr hv]

theorem lenlex_compare (A B : List Char)
    (hA : ∀ c ∈ A, isDigitCh c = true) (hB : ∀ c ∈ B, isDigitCh c = true)
    (hA0 : A.head? ≠ some '0') (hB0 : B.head? ≠ some '0') :
    (compare A.length B.length).then (charsCmp A B) =
      compare (digitsToNat A) (digitsToNat B) := by
  rcases Nat.lt_trichotomy A.length B.length with h | h | h
  · have hv : digitsToNat A < digitsToNat B := by
      cases B with
      | nil => simp at h
      | cons b bt =>
        have hb0 : b ≠ '0' := fun he => hB0 (by rw [List.head?_cons, he])
        have hble := digitsToNat_head_ge bt (hB b (List.mem_cons_self b bt)) hb0
        have hAlt := digitsToNat_lt A hA
        have hpow : 10 ^ A.length ≤ 10 ^ bt.length :=
          Nat.pow_le_pow_right (by norm_num) (by simp at h; omega)
        omega
    rw [Nat.compare_eq_lt.mpr h, Nat.compare_eq_lt.mpr hv]
    rfl
  · rw [Nat.compare_eq_eq.mpr h]
    rw [show Ordering.eq.then (charsCmp A B) = charsCmp A B from rfl]
    exact charsCmp_digits_eq_len A B h hA hB
  · have hv : digitsToNat B < digitsToNat A := by
      cases A with
      | nil => simp at h
      | cons a at' =>
        have ha0 : a ≠ '0' := fun he => hA0 (by rw [List.head?_cons, he])
        have hale := digitsToNat_head_ge at' (hA a (List.mem_cons_self a at')) ha0
        have hBlt := digitsToNat_lt B hB
        have hpow : 10 ^ B.length ≤ 10 ^ at'.length :=
          Nat.pow_le_pow_right (by norm_num) (by simp at h; omega)
        omega
    rw [Nat.compare_eq_gt.mpr h, Nat.compare_eq_gt.mpr hv]
    rfl

theorem isCanonNat_spec {ds : List Char} (h : isCanonNat ds = true) :
    ds ≠ [] ∧ (∀ c ∈ ds, isDigitCh c = true) ∧ (ds.head? = some '0' → ds = ['0']) := by
  rw [isCanonNat] at h
  simp only [Bool.and_eq_true, Bool.or_eq_true, bne_iff_ne, beq_iff_eq,
    List.all_eq_true, Bool.not_eq_true'] at h
  obtain ⟨⟨h1, h2⟩, h3⟩ := h
  refine ⟨by simpa [List.isEmpty_iff] using h1, h2, fun hh => ?_⟩
  rcases h3 with h3 | h3
  · exact absurd hh h3
  · exact h3

theorem charsCmp_self (A : List Char) : charsCmp A A = .eq := by
  induction A with
  | nil => rfl
  | cons a t ih => rw [charsCmp, Nat.compare_eq_eq.mpr rfl, ih]

theorem charsCmp_eq_iff : ∀ {A B : List Char}, charsCmp A B = .eq ↔ A = B := by
  intro A
  induction A with
  | nil =>
    intro B
    cases B with
    | nil => simp [charsCmp]
    | cons b bt => simp [charsCmp]
  | cons a t ih =>
    intro B
    cases B with
    | nil => simp [charsCmp]
    | cons b bt =>
      constructor
      · intro h
        rw [charsCmp] at h
        rcases hc : compare a.toNat b.toNat with _ | _ | _ <;> rw [hc] at h
        · cases h
        · have hab := char_toNat_inj (Nat.compare_eq_eq.mp hc)
          subst hab
          rw [ih.mp h]
        · cases h
      · intro h
        rw [← h]
        exact charsCmp_self (a :: t)

theorem charsCmp_append_left (p : List Char) :
    ∀ (x y : List Char), charsCmp (p ++ x) (p ++ y) = charsCmp x y := by
  intro x y
  induction p with
  | nil => rfl
  | cons c ct ih =>
    simp only [List.cons_append]
    rw [charsCmp, Nat.compare_eq_eq.mpr rfl, ih]

theorem gnuNumParse_digits {ds : List Char} (h1 : ds ≠ [])
    (h2 : ∀ c ∈ ds, isDigitCh c = true) : gnuNumParse ds = ⟨false, ds, []⟩ := by
  cases ds with
  | nil => exact absurd rfl h1
  | cons c ct =>
    have hc := h2 c (List.mem_cons_self c ct)
    have hdrop : (c :: ct).dropWhile isBlankCh = c :: ct :=
      dropWhile_eq_self_of_all (fun d hd => digit_not_blank (h2 d hd))
    have hdig : (c :: ct).dropWhile isDigitCh = [] := dropWhile_eq_nil_of_all h2
    have htake : (c :: ct).takeWhile isDigitCh = c :: ct := takeWhile_eq_self_of_all h2
    rw [gnuNumParse, hdrop, if_neg, gnuNumParseMag, hdig, if_neg, htake]
    · simp
    · rw [List.head?_cons]
      intro he
      injection he with he
      exact digit_ne_char hc '-' (by decide) he

theorem gnuNumCmp_canon (A B : List Char) (hA : isCanonNat A = true)
    (hB : isCanonNat B = true) :
    gnuNumCmp A B = compare (digitsToNat A) (digitsToNat B) := by
  obtain ⟨hA1, hA2, _⟩ := isCanonNat_spec hA
  obtain ⟨hB1, hB2, _⟩ := isCanonNat_spec hB
  have hpA := gnuNumParse_digits hA1 hA2
  have hpB := gnuNumParse_digits hB1 hB2
  rw [gnuNumCmp, hpA, hpB]
  simp only [if_neg (by simp : ¬ (false = true))]
  rw [magCmp]
  simp only []
  rw [show fracCmp [] [] = Ordering.eq from rfl, then_eq_right,
    lenlex_compare (stripZeros A) (stripZeros B)
      (fun c hc => hA2 c (mem_stripZeros hc)) (fun c hc => hB2 c (mem_stripZeros hc))
      (fun hh => stripZeros_head hh rfl) (fun hh => stripZeros_head hh rfl),
    digitsToNat_stripZeros, digitsToNat_stripZeros]

theorem pyParseInt_digits {ds : List Char} (h1 : ds ≠ [])
    (h2 : ∀ c ∈ ds, isDigitCh c = true) :
    pyParseInt ds = some (digitsToNat ds : Int) := by
  have hdrop1 : ds.dropWhile isPySpace = ds :=
    dropWhile_eq_self_of_all (fun d hd => digit_not_pyspace (h2 d hd))
  have hdrop2 : ds.reverse.dropWhile isPySpace = ds.reverse :=
    dropWhile_eq_self_of_all
      (fun d hd => digit_not_pyspace (h2 d (List.mem_reverse.mp hd)))
  cases ds with
  | nil => exact absurd rfl h1
  | cons c ct =>
    have hc := h2 c (List.mem_cons_self c ct)
    rw [pyParseInt]
    simp only [hdrop1, hdrop2, List.reverse_reverse]
    rw [if_neg, if_neg, if_pos]
    · exact ⟨by simp, by simpa [List.all_eq_true] using h2⟩
    · rw [List.head?_cons]
      intro he
      injection he with he
      exact digit_ne_char hc '+' (by decide) he
    · rw [List.head?_cons]
      intro he
      injection he with he
      exact digit_ne_char hc '-' (by decide) he

theorem canon_val_inj {A B : List Char} (hA : isCanonNat A = true)
    (hB : isCanonNat B = true) (h : digitsToNat A = digitsToNat B) : A = B := by
  have hcmp := gnuNumCmp_canon A B hA hB
  rw [h, Nat.compare_eq_eq.mpr rfl] at hcmp
  obtain ⟨hA1, hA2, _⟩ := isCanonNat_spec hA
  obtain ⟨hB1, hB2, _⟩ := isCanonNat_spec hB
  rw [gnuNumCmp, gnuNumParse_digits hA1 hA2, gnuNumParse_digits hB1 hB2] at hcmp
  simp only [if_neg (by simp : ¬ (false = true))] at hcmp
  rw [magCmp] at hcmp
  simp only [] at hcmp
  rw [show fracCmp [] [] = Ordering.eq from rfl, then_eq_right] at hcmp
  obtain ⟨hlen, hlex⟩ := then_eq_iff.mp hcmp
  have hstrip : stripZeros A = stripZeros B := charsCmp_eq_iff.mp hlex
  obtain ⟨_, _, hA3⟩ := isCanonNat_spec hA
  obtain ⟨_, _, hB3⟩ := isCanonNat_spec hB
  cases A with
  | nil => exact absurd rfl hA1
  | cons a at' =>
    cases B with
    | nil => exact absurd rfl hB1
    | cons b bt =>
      by_cases ha0 : a = '0'
      · have hAz := hA3 (by rw [List.head?_cons, ha0])
        by_cases hb0 : b = '0'
        · rw [hAz, hB3 (by rw [List.head?_cons, hb0])]
        · exfalso
          have hsA : stripZeros (a :: at') = [] := by
            rw [hAz]
            decide
          have hsB : stripZeros (b :: bt) = b :: bt := by
            rw [stripZeros, List.dropWhile_cons, if_neg (by simp [hb0])]
          rw [hsA, hsB] at hstrip
          cases hstrip
      · have hsA : stripZeros (a :: at') = a :: at' := by
          rw [stripZeros, List.dropWhile_cons, if_neg (by simp [ha0])]
        by_cases hb0 : b = '0'
        · exfalso
          have hBz := hB3 (by rw [List.head?_cons, hb0])
          have hsB : stripZeros (b :: bt) = [] := by
            rw [hBz]
            decide
          rw [hsA, hsB] at hstrip
          cases hstrip
        · have hsB : stripZeros (b :: bt) = b :: bt := by
            rw [stripZeros, List.dropWhile_cons, if_neg (by simp [hb0])]
          rw [hsA, hsB] at hstrip
          exact hstrip

theorem canon_no_space {ds : List Char} (h : isCanonNat ds = true) : ' ' ∉ ds := by
  obtain ⟨_, h2, _⟩ := isCanonNat_spec h
  intro hm
  exact absurd (h2 ' ' hm) (by decide)

theorem canon_chunk_no_nul {r : String × String} (hk : isCanonNat r.1.data = true)
    (hv : '\x00' ∉ r.2.data) : '\x00' ∉ chunkRec r := by
  obtain ⟨_, h2, _⟩ := isCanonNat_spec hk
  intro hm
  rw [chunkRec] at hm
  rcases List.mem_append.mp hm with hm | hm
  · exact absurd (h2 _ hm) (by decide)
  · rcases List.mem_cons.mp hm with hm | hm
    · exact absurd hm (by decide)
    · exact hv hm

theorem insertByCmp_map {α β : Type} (f : α → β) (cmp : β → β → Ordering) (a : α) :
    ∀ (l : List α), insertByCmp cmp (f a) (l.map f) =
      (insertByCmp (fun x y => cmp (f x) (f y)) a l).map f := by
  intro l
  induction l with
  | nil => rfl
  | cons b bs ih =>
    rw [List.map_cons, insertByCmp, insertByCmp]
    by_cases h : cmp (f a) (f b) = .gt
    · rw [if_pos h, if_pos h, List.map_cons, ih]
    · rw [if_neg h, if_neg h, List.map_cons, List.map_cons]

theorem sortByCmp_map {α β : Type} (f : α → β) (cmp : β → β → Ordering) :
    ∀ (l : List α), sortByCmp cmp (l.map f) =
      (sortByCmp (fun x y => cmp (f x) (f y)) l).map f := by
  intro l
  induction l with
  | nil => rfl
  | cons a as ih => rw [List.map_cons, sortByCmp, sortByCmp, ih, insertByCmp_map]

theorem mem_insertByCmp {α : Type} {cmp : α → α → Ordering} {x a : α} :
    ∀ {l : List α}, x ∈ insertByCmp cmp a l → x = a ∨ x ∈ l := by
  intro l
  induction l with
  | nil =>
    intro h
    simpa [insertByCmp] using h
  | cons b bs ih =>
    intro h
    rw [insertByCmp] at h
    by_cases hc : cmp a b = .gt
    · rw [if_pos hc] at h
      rcases List.mem_cons.mp h with h | h
      · exact Or.inr (h ▸ List.mem_cons_self b bs)
      · rcases ih h with h | h
        · exact Or.inl h
        · exact Or.inr (List.mem_cons_of_mem b h)
    · rw [if_neg hc] at h
      rcases List.mem_cons.mp h with h | h
      · exact Or.inl h
      · exact Or.inr h

theorem mem_sortByCmp {α : Type} {cmp : α → α → Ordering} :
    ∀ {l : List α} {x : α}, x ∈ sortByCmp cmp l → x ∈ l := by
  intro l
  induction l with
  | nil => intro x h; exact absurd h (List.not_mem_nil x)
  | cons a as ih =>
    intro x h
    rw [sortByCmp] at h
    rcases mem_insertByCmp h with h | h
    · exact h ▸ List.mem_cons_self a as
    · exact List.mem_cons_of_mem a (ih h)

theorem insertByCmp_congr {α : Type} {cmp cmp' : α → α → Ordering} (a : α) :
    ∀ (l : List α), (∀ b ∈ l, cmp a b = cmp' a b) →
      insertByCmp cmp a l = insertByCmp cmp' a l := by
  intro l
  induction l with
  | nil => intro _; rfl
  | cons b bs ih =>
    intro h
    rw [insertByCmp, insertByCmp, h b (List.mem_cons_self b bs),
      ih (fun d hd => h d (List.mem_cons_of_mem b hd))]

theorem sortByCmp_congr {α : Type} {cmp cmp' : α → α → Ordering} :
    ∀ (l : List α), (∀ a ∈ l, ∀ b ∈ l, cmp a b = cmp' a b) →
      sortByCmp cmp l = sortByCmp cmp' l := by
  intro l
  induction l with
  | nil => intro _; rfl
  | cons a as ih =>
    intro h
    have has : ∀ x ∈ as, ∀ y ∈ as, cmp x y = cmp' x y :=
      fun x hx y hy =>
        h x (List.mem_cons_of_mem a hx) y (List.mem_cons_of_mem a hy)
    rw [sortByCmp, sortByCmp, ih has,
      insertByCmp_congr a _ (fun b hb =>
        h a (List.mem_cons_self a as) b (List.mem_cons_of_mem a (mem_sortByCmp hb)))]

theorem spillStream_ok_of_valid :
    ∀ (recs : List (String × String)),
      (∀ r ∈ recs, ' ' ∉ r.1.data ∧ '\x00' ∉ r.2.data) →
      spillStream recs = .ok (serializeSpill recs) := by
  intro recs
  induction recs with
  | nil => intro _; rfl
  | cons r rs ih =>
    intro h
    obtain ⟨h1, h2⟩ := h r (List.mem_cons_self r rs)
    obtain ⟨k, v⟩ := r
    rw [spillStream, if_neg h1, if_neg h2,
      ih (fun x hx => h x (List.mem_cons_of_mem _ hx))]
    rfl

theorem splitNulGo_chunk {ch : List Char} (h : '\x00' ∉ ch) :
    ∀ (acc rest : List Char),
      splitNulGo acc (ch ++ '\x00' :: rest) = (acc.reverse ++ ch) :: splitNulGo [] rest := by
  induction ch with
  | nil =>
    intro acc rest
    rw [List.nil_append, splitNulGo, if_pos rfl, List.append_nil]
  | cons c ct ih =>
    intro acc rest
    have hc : c ≠ '\x00' := fun he => h (he ▸ List.mem_cons_self c ct)
    rw [List.cons_append, splitNulGo, if_neg hc,
      ih (fun hm => h (List.mem_cons_of_mem c hm)) (c :: acc) rest]
    simp

theorem splitNul_serialize :
    ∀ (recs : List (String × String)),
      (∀ r ∈ recs, '\x00' ∉ chunkRec r) →
      splitNul (serializeSpill recs) = recs.map chunkRec := by
  intro recs
  induction recs with
  | nil => intro _; rfl
  | cons r rs ih =>
    intro h
    have hser : serializeSpill (r :: rs) = chunkRec r ++ '\x00' :: serializeSpill rs := by
      rw [serializeSpill]
      simp [spillRecord, chunkRec]
    rw [splitNul, hser, splitNulGo_chunk (h r (List.mem_cons_self r rs)) [] _,
      List.map_cons, List.reverse_nil, List.nil_append]
    rw [show splitNulGo [] (serializeSpill rs) = splitNul (serializeSpill rs) from rfl,
      ih (fun x hx => h x (List.mem_cons_of_mem r hx))]

theorem parseSpillGo_key {ka : List Char} (hka : ' ' ∉ ka) :
    ∀ (acc rest : List Char),
      parseSpillGo none acc (ka ++ ' ' :: rest) =
        parseSpillGo (some (acc.reverse ++ ka)) [] rest := by
  induction ka with
  | nil =>
    intro acc rest
    rw [List.nil_append, parseSpillGo, if_pos rfl, List.append_nil]
  | cons c ct ih =>
    intro acc rest
    have hc : c ≠ ' ' := fun he => hka (he ▸ List.mem_cons_self c ct)
    rw [List.cons_append, parseSpillGo, if_neg hc,
      ih (fun hm => hka (List.mem_cons_of_mem c hm)) (c :: acc) rest]
    simp

theorem parseSpillGo_val {va : List Char} (hva : '\x00' ∉ va) (key : List Char) :
    ∀ (acc rest : List Char),
      parseSpillGo (some key) acc (va ++ '\x00' :: rest) =
        (String.mk key, String.mk (acc.reverse ++ va)) :: parseSpillGo none [] rest := by
  induction va with
  | nil =>
    intro acc rest
    rw [List.nil_append, parseSpillGo, if_pos rfl, List.append_nil]
  | cons c ct ih =>
    intro acc rest
    have hc : c ≠ '\x00' := fun he => hva (he ▸ List.mem_cons_self c ct)
    rw [List.cons_append, parseSpillGo, if_neg hc,
      ih (fun hm => hva (List.mem_cons_of_mem c hm)) (c :: acc) rest]
    simp

theorem parseSpill_joinNul :
    ∀ (l : List (String × String)),
      (∀ r ∈ l, ' ' ∉ r.1.data ∧ '\x00' ∉ r.2.data) →
      parseSpill (joinNul (l.map chunkRec)) = l := by
  intro l
  induction l with
  | nil => intro _; rfl
  | cons r rs ih =>
    intro h
    obtain ⟨h1, h2⟩ := h r (List.mem_cons_self r rs)
    rw [List.map_cons, joinNul, parseSpill,
      show chunkRec r ++ '\x00' :: joinNul (rs.map chunkRec) =
        r.1.data ++ ' ' :: (r.2.data ++ '\x00' :: joinNul (rs.map chunkRec)) by
          simp [chunkRec],
      parseSpillGo_key h1 [] _, parseSpillGo_val h2 _ [] _,
      show parseSpillGo none [] (joinNul (rs.map chunkRec)) =
        parseSpill (joinNul (rs.map chunkRec)) from rfl,
      ih (fun x hx => h x (List.mem_cons_of_mem r hx))]
    rfl

theorem field1_chunk (r : String × String) (h : ' ' ∉ r.1.data) :
    field1 (chunkRec r) = r.1.data := by
  rw [field1, chunkRec]
  exact takeWhile_middle _
    (fun x hx => decide_eq_true (fun he => h (he ▸ hx))) (by decide)

theorem num_cmp_eq_of_parse {x y : String × String} {nx ny : Int}
    (hx : pyParseInt x.1.data = some nx) (hy : pyParseInt y.1.data = some ny) :
    num_cmp x y = (compare nx ny).then (charsCmp x.2.data y.2.data) := by
  rw [num_cmp, hx, hy]

theorem extRecCmp_chunk (r s : String × String) (hr : isCanonNat r.1.data = true)
    (hs : isCanonNat s.1.data = true) :
    extRecCmp (chunkRec r) (chunkRec s) = num_cmp r s := by
  obtain ⟨hr1, hr2, _⟩ := isCanonNat_spec hr
  obtain ⟨hs1, hs2, _⟩ := isCanonNat_spec hs
  rw [extRecCmp, field1_chunk r (canon_no_space hr), field1_chunk s (canon_no_space hs),
    gnuNumCmp_canon _ _ hr hs,
    num_cmp_eq_of_parse (pyParseInt_digits hr1 hr2) (pyParseInt_digits hs1 hs2),
    compare_natCast]
  rcases hc : compare (digitsToNat r.1.data) (digitsToNat s.1.data) with _ | _ | _
  · rfl
  · have hkeq : r.1.data = s.1.data := canon_val_inj hr hs (Nat.compare_eq_eq.mp hc)
    show charsCmp (chunkRec r) (chunkRec s) = charsCmp r.2.data s.2.data
    rw [chunkRec, chunkRec, ← hkeq,
      show r.1.data ++ ' ' :: r.2.data = (r.1.data ++ [' ']) ++ r.2.data by simp,
      show r.1.data ++ ' ' :: s.2.data = (r.1.data ++ [' ']) ++ s.2.data by simp,
      charsCmp_append_left]
  · rfl

/-- C4 counterexample: the records `("a","x"), ("1","y")` are valid for
external sort (no space in keys, no NUL in values), yet the external-sort
path leaves them in place (GNU `sort -n` reads the numeric value of the
non-numeric key `"a"` as 0, below 1) while the in-memory comparator puts
`("1","y")` first (an integer key sorts before any string key): the two
orders differ. -/
theorem download_and_sort_counterexample :
    (("a" : String).data.contains ' ' = false ∧ ("1" : String).data.contains ' ' = false ∧
      ("x" : String).data.contains '\x00' = false ∧
      ("y" : String).data.contains '\x00' = false) ∧
      download_and_sort [("a", "x"), ("1", "y")] = .ok [("a", "x"), ("1", "y")] ∧
      memory_sort [("a", "x"), ("1", "y")] = [("1", "y"), ("a", "x")] ∧
      ([("a", "x"), ("1", "y")] : List (String × String)) ≠ [("1", "y"), ("a", "x")] := by
  exact ⟨⟨rfl, rfl, rfl, rfl⟩, rfl, rfl, by decide⟩

/-- C4 (amended): for records whose keys are canonical decimal naturals
(digits only, no leading zeros) and whose values are NUL-free, the record
order produced by the external-sort path (spill to `key value\0`, external
`sort -n -k 1,1 -z -t ' '`, re-parse) is identical to the order produced by
the in-memory sort with `num_cmp`.  (For merely space-free keys the two paths
can disagree: see the counterexample.) -/
theorem download_and_sort_eq_memory_sort (recs : List (String × String))
    (hk : ∀ r ∈ recs, isCanonNat r.1.data = true)
    (hv : ∀ r ∈ recs, '\x00' ∉ r.2.data) :
    download_and_sort recs = .ok (memory_sort recs) := by
  have hvalid : ∀ r ∈ recs, ' ' ∉ r.1.data ∧ '\x00' ∉ r.2.data :=
    fun r hr => ⟨canon_no_space (hk r hr), hv r hr⟩
  rw [download_and_sort, spillStream_ok_of_valid recs hvalid]
  simp only [Except.map]
  congr 1
  rw [gnuSortZ,
    splitNul_serialize recs (fun r hr => canon_chunk_no_nul (hk r hr) (hv r hr)),
    sortByCmp_map chunkRec extRecCmp recs,
    sortByCmp_congr recs (fun a ha b hb => extRecCmp_chunk a b (hk a ha) (hk b hb)),
    show sortByCmp num_cmp recs = memory_sort recs from rfl]
  exact parseSpill_joinNul (memory_sort recs)
    (fun r hr => hvalid r (mem_sortByCmp hr))

theorem download_and_sort_eq_memory_sort_witness :
    (isCanonNat ("10" : String).data = true ∧ isCanonNat ("9" : String).data = true) ∧
      download_and_sort [("10", "b"), ("9", "a c"), ("9", "a b")] =
        .ok (memory_sort [("10", "b"), ("9", "a c"), ("9", "a b")]) :=
  ⟨⟨rfl, rfl⟩,
    download_and_sort_eq_memory_sort [("10", "b"), ("9", "a c"), ("9", "a b")]
      (by decide) (by decide)⟩

end Disco
